import Mathlib

/-!
# Verification of `HasuraClient` (cardano-graphql)

A shallow embedding of `packages/api-cardano-db-hasura/src/HasuraClient.ts`:
the schema-synchronisation workflow (`applySchemaAndMetadata`, `buildHasuraSchema`),
the circulating-supply producer, and the UTXO/token balance aggregation in
`getPaymentAddressSummary`, together with theorems about them.

Machine integers never occur: all ledger quantities are decimal strings
processed through the BigNumber arbitrary-precision library, modelled here by
exact `Nat` arithmetic with an explicit decimal parser and printer.
-/

namespace HasuraClient

/-! ## Decimal strings: the model of `bignumber.js` on integer quantities

`new BigNumber(s)` on a decimal-integer string reads its value; `.plus` is an
exact sum; `.toString()` renders the canonical decimal numeral. The library is
arbitrary precision, so the model is exact `Nat` arithmetic composed with a
canonical decimal printer. -/

/-- The character for a single decimal digit `d < 10`. -/
def digitChar (d : Nat) : Char := Char.ofNat (48 + d)

/-- Numeric value of a decimal digit character. -/
def charVal (c : Char) : Nat := c.toNat - 48

/-- Fuel-driven canonical decimal printer (most significant digit first),
structurally recursive so that it evaluates inside the kernel. -/
def toDecCore : Nat → Nat → List Char → List Char
  | 0, _, acc => acc
  | fuel + 1, n, acc =>
    if n < 10 then digitChar (n % 10) :: acc
    else toDecCore fuel (n / 10) (digitChar (n % 10) :: acc)

/-- Canonical decimal numeral of a natural number: the model of
`BigNumber.prototype.toString` on non-negative integer values. -/
def natToDec (n : Nat) : String := String.mk (toDecCore (n + 1) n [])

/-- Value of a list of decimal digit characters (most significant first). -/
def parseDecChars (l : List Char) : Nat := l.foldl (fun a c => a * 10 + charVal c) 0

/-- Value of a decimal-integer string: the model of `new BigNumber(s)` for the
decimal-string quantities delivered by the data store. -/
def parseDec (s : String) : Nat := parseDecChars s.data

/-- `new BigNumber(a).plus(new BigNumber(b)).toString()`: exact sum of two
decimal-string quantities, rendered back to a decimal string. -/
def bigNumPlus (a b : String) : String := natToDec (parseDec a + parseDec b)

/-- A non-empty string consisting solely of decimal digit characters. -/
def ValidDec (s : String) : Prop :=
  s.data ≠ [] ∧ ∀ c ∈ s.data, 48 ≤ c.toNat ∧ c.toNat ≤ 57

instance decidableValidDec (s : String) : Decidable (ValidDec s) :=
  inferInstanceAs (Decidable (s.data ≠ [] ∧ ∀ c ∈ s.data, 48 ≤ c.toNat ∧ c.toNat ≤ 57))

/-! ## Data model of `getPaymentAddressSummary`

The GraphQL query returns `utxos` rows (`value` plus a list of `tokens`, each
token a descriptor `asset` and a decimal-string `quantity`) and a separate
`utxos_aggregate.aggregate.count`. The aggregation folds the rows into a
`Map<Asset['assetId'], AssetBalance>`; a JS `Map` is insertion ordered, so the
model is an association list where `set` updates in place or appends. -/

/-- The asset descriptor selected by the `PaymentAddressSummary` query. Fields
absent from an object literal (`undefined` in TS) are `none`. -/
structure Asset where
  assetId : String
  assetName : String
  name : String
  policyId : String
  description : Option String := none
  fingerprint : Option String := none
  logo : Option String := none
  metadataHash : Option String := none
  ticker : Option String := none
  url : Option String := none
deriving DecidableEq

/-- A `tokens` row: descriptor plus decimal-string quantity. -/
structure Token where
  asset : Asset
  quantity : String
deriving DecidableEq

/-- A `utxos` row: base-currency `value` plus the token list. -/
structure TransactionOutput where
  value : String
  tokens : List Token
deriving DecidableEq

/-- An entry of the aggregation map (same shape as `Token`; the source stores a
`Token` as an `AssetBalance` via `token as unknown as AssetBalance`). -/
structure AssetBalance where
  asset : Asset
  quantity : String
deriving DecidableEq

/-- Result shape of `getPaymentAddressSummary`. -/
structure PaymentAddressSummary where
  assetBalances : List AssetBalance
  utxosCount : Nat
deriving DecidableEq

/-- The synthetic base-currency descriptor created for the reserved key
`'ada'` (other descriptor fields are left `undefined`). -/
def adaAsset : Asset :=
  { assetId := "ada", assetName := "ada", name := "ada", policyId := "" }

/-- `Map<Asset['assetId'], AssetBalance>` as an insertion-ordered association
list. -/
abbrev BalanceMap := List (String × AssetBalance)

/-- `map.has(k)`. -/
def mapHas (m : BalanceMap) (k : String) : Bool := m.any (fun p => p.1 == k)

/-- `map.get(k)` (`none` = `undefined`). -/
def mapGet (m : BalanceMap) (k : String) : Option AssetBalance :=
  (m.find? (fun p => p.1 == k)).map (·.2)

/-- `map.set(k, v)`: update in place when the key exists (a JS `Map` keeps the
unique existing entry at its original insertion position), otherwise append.
On the duplicate-free lists a `Map` denotes, this is replacement of the first
(only) occurrence, or append. -/
def mapSet (m : BalanceMap) (k : String) (v : AssetBalance) : BalanceMap :=
  match m with
  | [] => [(k, v)]
  | p :: rest => if p.1 == k then (k, v) :: rest else p :: mapSet rest k v

/-- `[...map.values()]` keeps insertion order. -/
def mapValues (m : BalanceMap) : List AssetBalance := m.map (·.2)

/-- The keys of the map in insertion order. -/
def mapKeys (m : BalanceMap) : List String := m.map (·.1)

/-- The first half of the loop body: fold one utxo's `value` into the `'ada'`
entry. The source tests `map.has('ada')` and then reads `map.get('ada')`;
`mapHas_eq_isSome` below shows the branches coincide with this match. The
updated entry is `{...current, ...{quantity: current.quantity + utxo.value}}`. -/
def processAda (m : BalanceMap) (u : TransactionOutput) : BalanceMap :=
  match mapGet m "ada" with
  | some current =>
    mapSet m "ada" { current with quantity := bigNumPlus current.quantity u.value }
  | none => mapSet m "ada" { asset := adaAsset, quantity := u.value }

/-- The inner loop body: fold one token into the entry keyed by its
`asset.assetId`; a fresh entry is the token itself cast to `AssetBalance`. -/
def processToken (m : BalanceMap) (t : Token) : BalanceMap :=
  match mapGet m t.asset.assetId with
  | some current =>
    mapSet m t.asset.assetId { current with quantity := bigNumPlus current.quantity t.quantity }
  | none => mapSet m t.asset.assetId { asset := t.asset, quantity := t.quantity }

/-- One iteration of `for (const utxo of result.data.utxos)`. -/
def processUtxo (m : BalanceMap) (u : TransactionOutput) : BalanceMap :=
  u.tokens.foldl processToken (processAda m u)

/-- The whole aggregation loop, starting from `new Map()`. -/
def aggregateUtxos (utxos : List TransactionOutput) : BalanceMap :=
  utxos.foldl processUtxo []

/-- `getPaymentAddressSummary`, post network: the utxo rows and the separately
queried aggregate count are the inputs; the result pairs the map's values with
that count. -/
def getPaymentAddressSummary (utxos : List TransactionOutput)
    (utxosAggregateCount : Nat) : PaymentAddressSummary :=
  { assetBalances := mapValues (aggregateUtxos utxos)
    utxosCount := utxosAggregateCount }

/-! ### The aggregation invariant

`mval m k` abstracts the map entry for `k` to its numeric value;
`totalContrib k utxos` is the exact sum of every quantity the input rows
contribute to asset id `k` (base-currency `value`s count towards the reserved
key `'ada'`). -/

/-- Numeric value of the entry for key `k`, when present. -/
def mval (m : BalanceMap) (k : String) : Option Nat :=
  (mapGet m k).map (fun b => parseDec b.quantity)

/-- Sum of the quantities that the tokens `ts` contribute to asset id `k`. -/
def tokensContrib (k : String) (ts : List Token) : Nat :=
  ((ts.filter (fun t => t.asset.assetId == k)).map (fun t => parseDec t.quantity)).sum

/-- Sum of the quantities one utxo row contributes to asset id `k`. -/
def utxoContrib (k : String) (u : TransactionOutput) : Nat :=
  (if k = "ada" then parseDec u.value else 0) + tokensContrib k u.tokens

/-- Sum of the quantities the whole input contributes to asset id `k`. -/
def totalContrib (k : String) (utxos : List TransactionOutput) : Nat :=
  (utxos.map (utxoContrib k)).sum

/-- Whether the aggregation creates an entry keyed `k`: any row at all creates
the `'ada'` entry, and any token with asset id `k` creates an entry for `k`. -/
def presentIn (utxos : List TransactionOutput) (k : String) : Bool :=
  utxos.any (fun u => k == "ada" || u.tokens.any (fun t => t.asset.assetId == k))

/-- Structural invariant of the aggregation map: keys are duplicate free and
every entry's descriptor carries the entry's key as its asset id. -/
def AggInv (m : BalanceMap) : Prop :=
  (mapKeys m).Nodup ∧ ∀ p ∈ m, p.2.asset.assetId = p.1

/-- Asset `A` of the worked example in the specification. -/
def exampleAssetA : Asset :=
  { assetId := "A", assetName := "A", name := "A", policyId := "" }

/-- Asset `B` of the worked example in the specification. -/
def exampleAssetB : Asset :=
  { assetId := "B", assetName := "B", name := "B", policyId := "" }

/-- First example record: base value `"1000000"`, token `A` quantity `"5"`. -/
def exampleUtxo1 : TransactionOutput :=
  { value := "1000000", tokens := [{ asset := exampleAssetA, quantity := "5" }] }

/-- Second example record: base value `"2000000"`, token `A` quantity `"7"`,
token `B` quantity `"1"`. -/
def exampleUtxo2 : TransactionOutput :=
  { value := "2000000"
    tokens := [{ asset := exampleAssetA, quantity := "7" },
               { asset := exampleAssetB, quantity := "1" }] }

/-- Two utxo rows that are equal up to the iteration order of the token list
within the record: same base value, token lists permutations of each other. -/
def TokenPermEquiv (u v : TransactionOutput) : Prop :=
  u.value = v.value ∧ u.tokens.Perm v.tokens

/-- The second example record with its token list iterated in the opposite
order. -/
def exampleUtxo2TokensSwapped : TransactionOutput :=
  { value := "2000000"
    tokens := [{ asset := exampleAssetB, quantity := "1" },
               { asset := exampleAssetA, quantity := "7" }] }

/-! ## Schema synchronisation: `applySchemaAndMetadata`

The method is guarded by the `applyingSchemaAndMetadata` boolean, runs two
`pRetry`-wrapped units of `hasuraCli` commands in sequence, and finally clears
the flag. Execution is modelled by threading the list of executed CLI
commands (the trace); an environment function decides whether each invocation
of the external `hasura` binary succeeds. -/

/-- `hasuraCli('migrate apply --down all')`. -/
def migrateDownCmd : String := "migrate apply --down all"

/-- `hasuraCli('migrate apply --up all')`. -/
def migrateUpCmd : String := "migrate apply --up all"

/-- `hasuraCli('metadata clear')`. -/
def metadataClearCmd : String := "metadata clear"

/-- `hasuraCli('metadata apply')`. -/
def metadataApplyCmd : String := "metadata apply"

/-- Success or failure of each external CLI invocation, as a function of the
commands already executed and the command being run. -/
def CliEnv : Type := List String → String → Bool

/-- `hasuraCli cmd`: record the executed command; the environment decides
whether the `exec` callback resolves or rejects. -/
def runCli (env : CliEnv) (tr : List String) (cmd : String) : List String × Bool :=
  (tr ++ [cmd], env tr cmd)

/-- Modelled from the spec: the Backoff Retrier (the `p-retry` dependency,
whose implementation is not part of the repository sources). `retries` counts
the additional attempts after the first — the source passes `retries: 9`,
i.e. ten total attempts. A failing non-final attempt re-runs the operation on
the state it left behind; the final attempt's result (in particular its
error) is returned unchanged. Backoff delays (factor 1.75) and the
`onFailedAttempt` logging callback affect neither state nor outcome and are
not represented. -/
def pRetryRun {σ E α : Type} (op : σ → σ × Except E α) : Nat → σ → σ × Except E α
  | 0, s => op s
  | r + 1, s =>
    match op s with
    | (s1, Except.ok a) => (s1, Except.ok a)
    | (s1, Except.error _) => pRetryRun op r s1

/-- Iterated state transformation: the state after `n` successive calls. -/
def iterApply {σ : Type} (f : σ → σ) : Nat → σ → σ
  | 0, s => s
  | n + 1, s => iterApply f n (f s)

/-- One attempt of the first retried unit: `migrate apply --down all`, then —
only if that `await` resolved — `migrate apply --up all`. A rejection makes
the attempt's async function reject at that point. -/
def migrateAttempt (env : CliEnv) (tr : List String) : List String × Except Unit Unit :=
  let r1 := runCli env tr migrateDownCmd
  if r1.2 then
    let r2 := runCli env r1.1 migrateUpCmd
    if r2.2 then (r2.1, Except.ok ()) else (r2.1, Except.error ())
  else (r1.1, Except.error ())

/-- One attempt of the second retried unit: `metadata clear`, then
`metadata apply`. -/
def metadataAttempt (env : CliEnv) (tr : List String) : List String × Except Unit Unit :=
  let r1 := runCli env tr metadataClearCmd
  if r1.2 then
    let r2 := runCli env r1.1 metadataApplyCmd
    if r2.2 then (r2.1, Except.ok ()) else (r2.1, Except.error ())
  else (r1.1, Except.error ())

/-- How a call to `applySchemaAndMetadata` ends: skipped by the guard,
completed, or terminated by a propagating rejection. -/
inductive ApplyResult where
  | skipped
  | completed
  | failed
deriving DecidableEq

/-- The state owned by the `HasuraClient` instance that the method touches:
the `applyingSchemaAndMetadata` flag and the executed-command trace. -/
structure SyncState where
  applying : Bool
  trace : List String
deriving DecidableEq

/-- `applySchemaAndMetadata()`: return immediately when the `applying` flag is
already set; otherwise set the flag (synchronously, before the first await),
run the migrations unit under `pRetry`, then the metadata unit under
`pRetry`, then clear the flag. The clearing assignment is simply the last
statement of the body — there is no `try`/`finally` — so when either
`pRetry` exhausts its attempts the rejection propagates and the assignment
never executes: the flag remains `true` in the `failed` outcome. -/
def applySchemaAndMetadata (env : CliEnv) (s : SyncState) : SyncState × ApplyResult :=
  if s.applying then (s, ApplyResult.skipped)
  else
    match pRetryRun (migrateAttempt env) 9 ({ s with applying := true } : SyncState).trace with
    | (tr1, Except.error _) => ({ applying := true, trace := tr1 }, ApplyResult.failed)
    | (tr1, Except.ok _) =>
      match pRetryRun (metadataAttempt env) 9 tr1 with
      | (tr2, Except.error _) => ({ applying := true, trace := tr2 }, ApplyResult.failed)
      | (tr2, Except.ok _) => ({ applying := false, trace := tr2 }, ApplyResult.completed)

/-! ## Schema validation: `buildHasuraSchema` -/

/-- The introspected remote schema, abstracted to the set of type names it
exposes (the introspection and wrapping themselves are external
`@graphql-tools` calls). -/
structure IntrospectedSchema where
  typeNames : List String
deriving DecidableEq

/-- `schema.getType(t)` truthiness. -/
def getType (s : IntrospectedSchema) (t : String) : Bool := s.typeNames.contains t

/-- The `coreTypes` array exactly as in the source (`'Block'` is listed
twice). -/
def coreTypes : List String := ["Block", "Cardano", "Epoch", "Block", "Transaction"]

/-- The validation loop of `buildHasuraSchema`: iterate over `coreTypes` and
throw `Remote schema is missing <t>` at the first absent type, otherwise
return the schema. -/
def checkCoreTypes : List String → IntrospectedSchema → Except String IntrospectedSchema
  | [], s => Except.ok s
  | t :: ts, s =>
    if getType s t then checkCoreTypes ts s
    else Except.error ("Remote schema is missing " ++ t)

/-- `buildHasuraSchema`, post introspection: validate the required top-level
types and return the wrapped schema. -/
def buildHasuraSchema (s : IntrospectedSchema) : Except String IntrospectedSchema :=
  checkCoreTypes coreTypes s

/-! ## The circulating-supply producer -/

/-- The distinguished chain-sync message the producer's catch handler tests. -/
def notReadyMessage : String :=
  "currentEpoch is only available when close to the chain tip. This is expected during the initial chain-sync."

/-- Outcome of a settled JS promise. -/
inductive PromiseOutcome (α : Type) where
  | resolved : α → PromiseOutcome α
  | rejected : String → PromiseOutcome α
deriving DecidableEq

/-- Outcome of evaluating a synchronous JS expression: a value, or a
synchronous `throw`. -/
inductive SyncOutcome (α : Type) where
  | value : α → SyncOutcome α
  | thrown : String → SyncOutcome α
deriving DecidableEq

/-- JS `try { body } catch (e) { handler }` on synchronous outcomes: the
handler intercepts only synchronous throws of the body. -/
def tryCatch {α : Type} (body : SyncOutcome α)
    (handler : String → SyncOutcome α) : SyncOutcome α :=
  match body with
  | SyncOutcome.value v => SyncOutcome.value v
  | SyncOutcome.thrown e => handler e

/-- The producer's catch handler: rethrow unless the message equals the
distinguished chain-sync message; otherwise log at debug level and fall off
the end of the function (returning `undefined`, i.e. `none`). -/
def producerCatchHandler (e : String) : SyncOutcome (PromiseOutcome (Option String)) :=
  if e ≠ notReadyMessage then SyncOutcome.thrown e
  else SyncOutcome.value (PromiseOutcome.resolved none)

/-- The producer body
`() => { try { return this.getAdaCirculatingSupply() } catch (error) {...} }`
as a function of the outcome `q` of the `getAdaCirculatingSupply()` promise.
Calling an `async` method never throws synchronously — its failures surface
only as a rejection of the returned promise, which is returned here without
an `await` — so the `try` body is a plain value and the handler can only see
synchronous throws, of which there are none. -/
def adaCirculatingSupplyProducerBody (q : PromiseOutcome String) :
    SyncOutcome (PromiseOutcome (Option String)) :=
  tryCatch
    (SyncOutcome.value (match q with
      | PromiseOutcome.resolved v => PromiseOutcome.resolved (some v)
      | PromiseOutcome.rejected e => PromiseOutcome.rejected e))
    producerCatchHandler

/-- What the `DataFetcher` awaiting the producer observes: the outcome of the
returned promise; a synchronous throw in the producer would likewise surface
to the fetcher as a rejection. -/
def adaCirculatingSupplyProducer (q : PromiseOutcome String) :
    PromiseOutcome (Option String) :=
  match adaCirculatingSupplyProducerBody q with
  | SyncOutcome.value p => p
  | SyncOutcome.thrown e => PromiseOutcome.rejected e

/-- Modelled from the spec: the behaviour the specification ascribes to this
producer — the distinguished "not ready yet" rejection is logged at debug
level and swallowed (no update this cycle, nothing reaches the fetcher), any
other rejection is rethrown. -/
def specNotReadySwallowed (q : PromiseOutcome String) : PromiseOutcome (Option String) :=
  match q with
  | PromiseOutcome.resolved v => PromiseOutcome.resolved (some v)
  | PromiseOutcome.rejected e =>
    if e = notReadyMessage then PromiseOutcome.resolved none
    else PromiseOutcome.rejected e

theorem charVal_digitChar {d : Nat} (h : d < 10) : charVal (digitChar d) = d := by
  interval_cases d <;> rfl

theorem toNat_digitChar {d : Nat} (h : d < 10) :
    48 ≤ (digitChar d).toNat ∧ (digitChar d).toNat ≤ 57 := by
  interval_cases d <;> exact ⟨by decide, by decide⟩

theorem toDecCore_append (fuel : Nat) :
    ∀ (n : Nat) (acc : List Char), toDecCore fuel n acc = toDecCore fuel n [] ++ acc := by
  induction fuel with
  | zero => intro n acc; simp [toDecCore]
  | succ fuel ih =>
    intro n acc
    by_cases h : n < 10
    · simp [toDecCore, h]
    · simp only [toDecCore, if_neg h]
      rw [ih (n / 10) (digitChar (n % 10) :: acc), ih (n / 10) [digitChar (n % 10)]]
      simp

theorem parseDecChars_append_singleton (l : List Char) (c : Char) :
    parseDecChars (l ++ [c]) = parseDecChars l * 10 + charVal c := by
  simp [parseDecChars, List.foldl_append]

theorem parseDecChars_toDecCore (fuel : Nat) :
    ∀ n : Nat, n < 10 ^ fuel → parseDecChars (toDecCore fuel n []) = n := by
  induction fuel with
  | zero =>
    intro n hn
    interval_cases n
    rfl
  | succ fuel ih =>
    intro n hn
    by_cases h : n < 10
    · rw [toDecCore, if_pos h, Nat.mod_eq_of_lt h]
      simp [parseDecChars, charVal_digitChar h]
    · simp only [toDecCore, if_neg h]
      rw [toDecCore_append, parseDecChars_append_singleton,
        charVal_digitChar (Nat.mod_lt n (by norm_num)),
        ih (n / 10) (by
          rw [Nat.div_lt_iff_lt_mul (by norm_num : 0 < 10)]
          calc n < 10 ^ (fuel + 1) := hn
            _ = 10 ^ fuel * 10 := by rw [Nat.pow_succ])]
      omega

theorem parseDec_natToDec (n : Nat) : parseDec (natToDec n) = n := by
  have hlt : n < 10 ^ (n + 1) := by
    calc n < 2 ^ n := Nat.lt_two_pow n
      _ ≤ 10 ^ n := Nat.pow_le_pow_left (by norm_num) n
      _ ≤ 10 ^ (n + 1) := Nat.pow_le_pow_right (by norm_num) (Nat.le_succ n)
  exact parseDecChars_toDecCore (n + 1) n hlt

theorem toDecCore_digits (fuel : Nat) :
    ∀ n : Nat, ∀ c ∈ toDecCore fuel n [], 48 ≤ c.toNat ∧ c.toNat ≤ 57 := by
  induction fuel with
  | zero => intro n c hc; simp [toDecCore] at hc
  | succ fuel ih =>
    intro n c hc
    by_cases h : n < 10
    · simp [toDecCore, if_pos h] at hc
      subst hc
      exact toNat_digitChar (Nat.mod_lt n (by norm_num))
    · simp only [toDecCore, if_neg h] at hc
      rw [toDecCore_append] at hc
      rcases List.mem_append.mp hc with h1 | h1
      · exact ih (n / 10) c h1
      · simp at h1
        subst h1
        exact toNat_digitChar (Nat.mod_lt n (by norm_num))

theorem natToDec_validDec (n : Nat) : ValidDec (natToDec n) := by
  constructor
  · show toDecCore (n + 1) n [] ≠ []
    by_cases h : n < 10
    · simp [toDecCore, if_pos h]
    · simp only [toDecCore, if_neg h]
      rw [toDecCore_append]
      simp
  · exact toDecCore_digits (n + 1) n

/-! ### Association-list facts -/

theorem mapHas_eq_isSome (m : BalanceMap) (k : String) :
    mapHas m k = (mapGet m k).isSome := by
  induction m with
  | nil => rfl
  | cons p m ih =>
    by_cases h : p.1 == k
    · simp [mapHas, mapGet, List.find?, h]
    · simp only [mapHas, mapGet, List.any_cons, List.find?, h] at *
      simpa [mapHas, mapGet] using ih

/-- `processAda` is `processToken` on a synthetic `'ada'` token. -/
theorem processAda_eq (m : BalanceMap) (u : TransactionOutput) :
    processAda m u = processToken m { asset := adaAsset, quantity := u.value } := rfl

theorem mapGet_set_self (m : BalanceMap) (k : String) (v : AssetBalance) :
    mapGet (mapSet m k v) k = some v := by
  induction m with
  | nil => simp [mapSet, mapGet, List.find?]
  | cons p rest ih =>
    by_cases hp : p.1 = k
    · simp [mapSet, mapGet, List.find?, hp]
    · simp only [mapSet, if_neg (by simpa using hp)]
      simpa [mapGet, List.find?, hp] using ih

theorem mapGet_nil (k : String) : mapGet [] k = none := rfl

theorem mapGet_cons (p : String × AssetBalance) (rest : BalanceMap) (k : String) :
    mapGet (p :: rest) k = if p.1 = k then some p.2 else mapGet rest k := by
  by_cases hp : p.1 = k
  · have hb : (p.1 == k) = true := by simpa using hp
    simp [mapGet, @List.find?_cons_of_pos _ (fun q => q.1 == k) p rest hb, hp]
  · have hb : ¬((p.1 == k) = true) := by simpa using hp
    simp [mapGet, @List.find?_cons_of_neg _ (fun q => q.1 == k) p rest hb, hp]

theorem mapSet_cons (p : String × AssetBalance) (rest : BalanceMap) (k : String)
    (v : AssetBalance) :
    mapSet (p :: rest) k v = if p.1 = k then (k, v) :: rest else p :: mapSet rest k v := by
  by_cases hp : p.1 = k
  · simp [mapSet, hp]
  · simp [mapSet, hp]

theorem mapKeys_nil : mapKeys [] = [] := rfl

theorem mapKeys_cons (p : String × AssetBalance) (rest : BalanceMap) :
    mapKeys (p :: rest) = p.1 :: mapKeys rest := rfl

theorem mapHas_iff_mem_keys (m : BalanceMap) (k : String) :
    mapHas m k = true ↔ k ∈ mapKeys m := by
  unfold mapHas mapKeys
  rw [List.any_eq_true]
  constructor
  · rintro ⟨p, hp, hpk⟩
    exact List.mem_map.mpr ⟨p, hp, by simpa using hpk⟩
  · intro h
    obtain ⟨p, hp, hpk⟩ := List.mem_map.mp h
    exact ⟨p, hp, by simpa using hpk⟩

theorem mapGet_set_ne (m : BalanceMap) (k k' : String) (v : AssetBalance)
    (h : k' ≠ k) : mapGet (mapSet m k v) k' = mapGet m k' := by
  induction m with
  | nil =>
    show mapGet [(k, v)] k' = none
    rw [mapGet_cons, if_neg (fun hc => h hc.symm), mapGet_nil]
  | cons p rest ih =>
    rw [mapSet_cons]
    by_cases hp : p.1 = k
    · rw [if_pos hp, mapGet_cons, mapGet_cons, if_neg (fun hc => h hc.symm),
        if_neg (fun hc => h ((hp ▸ hc : k = k')).symm)]
    · rw [if_neg hp, mapGet_cons, mapGet_cons]
      by_cases hp' : p.1 = k'
      · rw [if_pos hp', if_pos hp']
      · rw [if_neg hp', if_neg hp', ih]

theorem mapKeys_set_mem (m : BalanceMap) (k : String) (v : AssetBalance)
    (h : k ∈ mapKeys m) : mapKeys (mapSet m k v) = mapKeys m := by
  induction m with
  | nil => simp [mapKeys] at h
  | cons p rest ih =>
    rw [mapSet_cons]
    by_cases hp : p.1 = k
    · rw [if_pos hp, mapKeys_cons, mapKeys_cons, hp]
    · rw [mapKeys_cons] at h
      rcases List.mem_cons.mp h with h1 | h1
      · exact absurd h1.symm hp
      · rw [if_neg hp, mapKeys_cons, mapKeys_cons, ih h1]

theorem mapKeys_set_not_mem (m : BalanceMap) (k : String) (v : AssetBalance)
    (h : k ∉ mapKeys m) : mapKeys (mapSet m k v) = mapKeys m ++ [k] := by
  induction m with
  | nil => rfl
  | cons p rest ih =>
    rw [mapKeys_cons] at h
    rw [mapSet_cons,
      if_neg (fun hc : p.1 = k =>
        h (by rw [← hc]; exact List.mem_cons_self p.1 (mapKeys rest))),
      mapKeys_cons, mapKeys_cons,
      ih (fun hc => h (List.mem_cons_of_mem p.1 hc)), List.cons_append]

theorem mem_keys_set (m : BalanceMap) (k k' : String) (v : AssetBalance) :
    k' ∈ mapKeys (mapSet m k v) ↔ k' ∈ mapKeys m ∨ k' = k := by
  by_cases h : k ∈ mapKeys m
  · rw [mapKeys_set_mem m k v h]
    constructor
    · exact Or.inl
    · rintro (h1 | rfl)
      · exact h1
      · exact h
  · rw [mapKeys_set_not_mem m k v h]
    simp

theorem nodup_mapKeys_set (m : BalanceMap) (k : String) (v : AssetBalance)
    (h : (mapKeys m).Nodup) : (mapKeys (mapSet m k v)).Nodup := by
  by_cases hk : k ∈ mapKeys m
  · rw [mapKeys_set_mem m k v hk]; exact h
  · rw [mapKeys_set_not_mem m k v hk]
    simpa [List.nodup_append] using ⟨h, fun hc => hk hc⟩

theorem mem_mapSet (m : BalanceMap) (k : String) (v : AssetBalance) :
    ∀ p ∈ mapSet m k v, p ∈ m ∨ p = (k, v) := by
  induction m with
  | nil => intro p hp; simp [mapSet] at hp; simp [hp]
  | cons q rest ih =>
    intro p hp
    rw [mapSet_cons] at hp
    by_cases hq : q.1 = k
    · rw [if_pos hq] at hp
      rcases List.mem_cons.mp hp with h1 | h1
      · exact Or.inr h1
      · exact Or.inl (List.mem_cons_of_mem q h1)
    · rw [if_neg hq] at hp
      rcases List.mem_cons.mp hp with h1 | h1
      · exact Or.inl (h1 ▸ List.mem_cons_self q rest)
      · rcases ih p h1 with h2 | h2
        · exact Or.inl (List.mem_cons_of_mem q h2)
        · exact Or.inr h2

theorem mapGet_of_mem (m : BalanceMap) (hnd : (mapKeys m).Nodup) :
    ∀ p ∈ m, mapGet m p.1 = some p.2 := by
  induction m with
  | nil => intro p hp; simp at hp
  | cons q rest ih =>
    rw [mapKeys_cons, List.nodup_cons] at hnd
    intro p hp
    rcases List.mem_cons.mp hp with h1 | h1
    · rw [h1, mapGet_cons, if_pos rfl]
    · have hq : q.1 ≠ p.1 := fun hc => hnd.1 (hc ▸ List.mem_map.mpr ⟨p, h1, rfl⟩)
      rw [mapGet_cons, if_neg hq]
      exact ih hnd.2 p h1

theorem mem_of_mapGet (m : BalanceMap) (k : String) (b : AssetBalance)
    (h : mapGet m k = some b) : (k, b) ∈ m := by
  induction m with
  | nil => simp [mapGet_nil] at h
  | cons q rest ih =>
    rw [mapGet_cons] at h
    by_cases hq : q.1 = k
    · rw [if_pos hq] at h
      have hb : q.2 = b := Option.some.inj h
      have : (k, b) = q := by rw [← hq, ← hb]
      rw [this]
      exact List.mem_cons_self q rest
    · rw [if_neg hq] at h
      exact List.mem_cons_of_mem q (ih h)

theorem parseDec_bigNumPlus (a b : String) :
    parseDec (bigNumPlus a b) = parseDec a + parseDec b :=
  parseDec_natToDec (parseDec a + parseDec b)

theorem tokensContrib_cons_pos (k : String) (t : Token) (ts : List Token)
    (h : t.asset.assetId = k) :
    tokensContrib k (t :: ts) = parseDec t.quantity + tokensContrib k ts := by
  simp [tokensContrib, List.filter_cons, h]

theorem tokensContrib_cons_neg (k : String) (t : Token) (ts : List Token)
    (h : t.asset.assetId ≠ k) : tokensContrib k (t :: ts) = tokensContrib k ts := by
  simp [tokensContrib, List.filter_cons, h]

theorem tokensContrib_eq_zero (k : String) (ts : List Token)
    (h : ts.any (fun t => t.asset.assetId == k) = false) : tokensContrib k ts = 0 := by
  have hfil : ts.filter (fun t => t.asset.assetId == k) = [] := by
    rw [List.filter_eq_nil_iff]
    intro t ht
    exact List.any_eq_false.mp h t ht
  simp [tokensContrib, hfil]

theorem totalContrib_cons (k : String) (u : TransactionOutput)
    (utxos : List TransactionOutput) :
    totalContrib k (u :: utxos) = utxoContrib k u + totalContrib k utxos := by
  simp [totalContrib]

theorem presentIn_cons (k : String) (u : TransactionOutput)
    (utxos : List TransactionOutput) :
    presentIn (u :: utxos) k =
      ((k == "ada" || u.tokens.any (fun t => t.asset.assetId == k)) || presentIn utxos k) := by
  simp [presentIn]

theorem mval_processToken_self (m : BalanceMap) (t : Token) :
    mval (processToken m t) t.asset.assetId =
      some ((mval m t.asset.assetId).getD 0 + parseDec t.quantity) := by
  unfold processToken
  cases hget : mapGet m t.asset.assetId with
  | none => simp [mval, hget, mapGet_set_self]
  | some current => simp [mval, hget, mapGet_set_self, parseDec_bigNumPlus]

theorem mval_processToken_ne (m : BalanceMap) (t : Token) (k : String)
    (h : k ≠ t.asset.assetId) : mval (processToken m t) k = mval m k := by
  unfold processToken
  cases hget : mapGet m t.asset.assetId with
  | none => simp [mval, mapGet_set_ne m t.asset.assetId k _ h]
  | some current => simp [mval, mapGet_set_ne m t.asset.assetId k _ h]

theorem mval_tokensFold_some (ts : List Token) :
    ∀ (m : BalanceMap) (k : String) (v : Nat), mval m k = some v →
      mval (ts.foldl processToken m) k = some (v + tokensContrib k ts) := by
  induction ts with
  | nil => intro m k v h; simpa [tokensContrib] using h
  | cons t rest ih =>
    intro m k v h
    rw [List.foldl_cons]
    by_cases hk : t.asset.assetId = k
    · subst hk
      have h1 := mval_processToken_self m t
      rw [h] at h1
      have := ih (processToken m t) t.asset.assetId (v + parseDec t.quantity) (by simpa using h1)
      rw [this, tokensContrib_cons_pos _ t rest rfl]
      congr 1
      omega
    · have h1 : mval (processToken m t) k = some v := by
        rw [mval_processToken_ne m t k (fun hc => hk hc.symm)]; exact h
      rw [ih (processToken m t) k v h1, tokensContrib_cons_neg _ t rest hk]

theorem mval_tokensFold_none (ts : List Token) :
    ∀ (m : BalanceMap) (k : String), mval m k = none →
      mval (ts.foldl processToken m) k =
        if ts.any (fun t => t.asset.assetId == k) then some (tokensContrib k ts) else none := by
  induction ts with
  | nil => intro m k h; simpa using h
  | cons t rest ih =>
    intro m k h
    rw [List.foldl_cons]
    by_cases hk : t.asset.assetId = k
    · subst hk
      have h1 := mval_processToken_self m t
      rw [h] at h1
      have := mval_tokensFold_some rest (processToken m t) t.asset.assetId
        (parseDec t.quantity) (by simpa using h1)
      rw [this, if_pos (by simp), tokensContrib_cons_pos _ t rest rfl]
    · have h1 : mval (processToken m t) k = none := by
        rw [mval_processToken_ne m t k (fun hc => hk hc.symm)]; exact h
      rw [ih (processToken m t) k h1, tokensContrib_cons_neg _ t rest hk]
      have : ((t :: rest).any (fun t => t.asset.assetId == k))
          = (rest.any (fun t => t.asset.assetId == k)) := by
        simp [List.any_cons, hk]
      rw [this]

theorem mval_processUtxo_some (m : BalanceMap) (u : TransactionOutput) (k : String)
    (v : Nat) (h : mval m k = some v) :
    mval (processUtxo m u) k = some (v + utxoContrib k u) := by
  unfold processUtxo
  by_cases hk : k = "ada"
  · subst hk
    have h1 : mval (processAda m u) "ada" = some ((mval m "ada").getD 0 + parseDec u.value) :=
      mval_processToken_self m { asset := adaAsset, quantity := u.value }
    rw [h] at h1
    have := mval_tokensFold_some u.tokens (processAda m u) "ada"
      (v + parseDec u.value) (by simpa using h1)
    rw [this, utxoContrib, if_pos rfl]
    congr 1
    omega
  · have h1 : mval (processAda m u) k = some v := by
      have h2 : mval (processAda m u) k = mval m k :=
        mval_processToken_ne m { asset := adaAsset, quantity := u.value } k (by simpa using hk)
      rw [h2]; exact h
    rw [mval_tokensFold_some u.tokens (processAda m u) k v h1, utxoContrib, if_neg hk,
      Nat.zero_add]

theorem mval_processUtxo_none (m : BalanceMap) (u : TransactionOutput) (k : String)
    (h : mval m k = none) :
    mval (processUtxo m u) k =
      if k == "ada" || u.tokens.any (fun t => t.asset.assetId == k)
      then some (utxoContrib k u) else none := by
  unfold processUtxo
  by_cases hk : k = "ada"
  · subst hk
    have h1 : mval (processAda m u) "ada" = some ((mval m "ada").getD 0 + parseDec u.value) :=
      mval_processToken_self m { asset := adaAsset, quantity := u.value }
    rw [h] at h1
    have := mval_tokensFold_some u.tokens (processAda m u) "ada"
      (parseDec u.value) (by simpa using h1)
    rw [this, if_pos (by simp), utxoContrib, if_pos rfl]
  · have h1 : mval (processAda m u) k = none := by
      have h2 : mval (processAda m u) k = mval m k :=
        mval_processToken_ne m { asset := adaAsset, quantity := u.value } k (by simpa using hk)
      rw [h2]; exact h
    rw [mval_tokensFold_none u.tokens (processAda m u) k h1]
    have hb : (k == "ada") = false := by simpa using hk
    rw [hb, Bool.false_or, utxoContrib, if_neg hk, Nat.zero_add]

theorem mval_utxosFold_some (utxos : List TransactionOutput) :
    ∀ (m : BalanceMap) (k : String) (v : Nat), mval m k = some v →
      mval (utxos.foldl processUtxo m) k = some (v + totalContrib k utxos) := by
  induction utxos with
  | nil => intro m k v h; simpa [totalContrib] using h
  | cons u rest ih =>
    intro m k v h
    rw [List.foldl_cons,
      ih (processUtxo m u) k (v + utxoContrib k u) (mval_processUtxo_some m u k v h),
      totalContrib_cons]
    congr 1
    omega

theorem mval_utxosFold_none (utxos : List TransactionOutput) :
    ∀ (m : BalanceMap) (k : String), mval m k = none →
      mval (utxos.foldl processUtxo m) k =
        if presentIn utxos k then some (totalContrib k utxos) else none := by
  induction utxos with
  | nil => intro m k h; simpa [presentIn] using h
  | cons u rest ih =>
    intro m k h
    rw [List.foldl_cons, presentIn_cons]
    by_cases hc : (k == "ada" || u.tokens.any (fun t => t.asset.assetId == k)) = true
    · have h1 : mval (processUtxo m u) k = some (utxoContrib k u) := by
        rw [mval_processUtxo_none m u k h, if_pos hc]
      rw [mval_utxosFold_some rest (processUtxo m u) k (utxoContrib k u) h1,
        hc, Bool.true_or, if_pos rfl, totalContrib_cons]
    · have hcf : (k == "ada" || u.tokens.any (fun t => t.asset.assetId == k)) = false := by
        simpa using hc
      have h1 : mval (processUtxo m u) k = none := by
        rw [mval_processUtxo_none m u k h, if_neg hc]
      rw [ih (processUtxo m u) k h1, hcf, Bool.false_or]
      have hzero : utxoContrib k u = 0 := by
        rcases Bool.or_eq_false_iff.mp hcf with ⟨hka, hta⟩
        rw [utxoContrib, if_neg (by simpa using hka), tokensContrib_eq_zero k u.tokens hta]
      rw [totalContrib_cons, hzero, Nat.zero_add]

/-- The value-level characterisation of the whole aggregation loop. -/
theorem mval_aggregate (utxos : List TransactionOutput) (k : String) :
    mval (aggregateUtxos utxos) k =
      if presentIn utxos k then some (totalContrib k utxos) else none :=
  mval_utxosFold_none utxos [] k rfl

theorem aggInv_processToken (m : BalanceMap) (t : Token) (h : AggInv m) :
    AggInv (processToken m t) := by
  obtain ⟨hnd, hkeyed⟩ := h
  unfold processToken
  cases hget : mapGet m t.asset.assetId with
  | none =>
    refine ⟨nodup_mapKeys_set m _ _ hnd, ?_⟩
    intro p hp
    rcases mem_mapSet m _ _ p hp with h1 | h1
    · exact hkeyed p h1
    · rw [h1]
  | some current =>
    refine ⟨nodup_mapKeys_set m _ _ hnd, ?_⟩
    intro p hp
    rcases mem_mapSet m _ _ p hp with h1 | h1
    · exact hkeyed p h1
    · rw [h1]
      show current.asset.assetId = t.asset.assetId
      exact hkeyed (t.asset.assetId, current) (mem_of_mapGet m _ current hget)

theorem aggInv_tokensFold (ts : List Token) :
    ∀ m : BalanceMap, AggInv m → AggInv (ts.foldl processToken m) := by
  induction ts with
  | nil => intro m h; exact h
  | cons t rest ih =>
    intro m h
    rw [List.foldl_cons]
    exact ih (processToken m t) (aggInv_processToken m t h)

theorem aggInv_processUtxo (m : BalanceMap) (u : TransactionOutput) (h : AggInv m) :
    AggInv (processUtxo m u) := by
  unfold processUtxo
  refine aggInv_tokensFold u.tokens (processAda m u) ?_
  rw [processAda_eq]
  exact aggInv_processToken m { asset := adaAsset, quantity := u.value } h

theorem aggInv_aggregate (utxos : List TransactionOutput) :
    AggInv (aggregateUtxos utxos) := by
  unfold aggregateUtxos
  have base : AggInv ([] : BalanceMap) := ⟨List.nodup_nil, by intro p hp; simp at hp⟩
  induction utxos with
  | nil => exact base
  | cons u rest ih =>
    have : ∀ m : BalanceMap, AggInv m → AggInv (rest.foldl processUtxo m) := by
      clear ih
      induction rest with
      | nil => intro m h; exact h
      | cons u2 r2 ih2 =>
        intro m h
        rw [List.foldl_cons]
        exact ih2 (processUtxo m u2) (aggInv_processUtxo m u2 h)
    rw [List.foldl_cons]
    exact this (processUtxo [] u) (aggInv_processUtxo [] u base)

/-- Under the invariant, the asset ids of the value list are the map's keys. -/
theorem assetIds_eq_mapKeys (m : BalanceMap) (h : AggInv m) :
    (mapValues m).map (fun b => b.asset.assetId) = mapKeys m := by
  unfold mapValues mapKeys
  rw [List.map_map]
  exact List.map_congr_left (fun p hp => h.2 p hp)

/-- Every output entry's quantity is the exact total contribution of the
input rows to that entry's asset id. -/
theorem aggregate_entry_value (utxos : List TransactionOutput) :
    ∀ b ∈ mapValues (aggregateUtxos utxos),
      parseDec b.quantity = totalContrib b.asset.assetId utxos := by
  intro b hb
  obtain ⟨p, hp, rfl⟩ := List.mem_map.mp hb
  have hinv := aggInv_aggregate utxos
  have hkey := hinv.2 p hp
  have hget := mapGet_of_mem _ hinv.1 p hp
  have hval : mval (aggregateUtxos utxos) p.1 = some (parseDec p.2.quantity) := by
    simp [mval, hget]
  rw [mval_aggregate] at hval
  by_cases hpres : presentIn utxos p.1 = true
  · rw [if_pos hpres] at hval
    rw [hkey]
    exact (Option.some.inj hval).symm
  · rw [if_neg hpres] at hval
    exact absurd hval (by simp)

theorem mem_keys_aggregate (utxos : List TransactionOutput) (k : String) :
    k ∈ mapKeys (aggregateUtxos utxos) ↔ presentIn utxos k = true := by
  rw [← mapHas_iff_mem_keys, mapHas_eq_isSome]
  have hiso : (mapGet (aggregateUtxos utxos) k).isSome
      = (mval (aggregateUtxos utxos) k).isSome := by
    simp [mval]
  rw [hiso, mval_aggregate]
  cases hpres : presentIn utxos k <;> simp

/-- `presentIn` in terms of the input rows. -/
theorem presentIn_iff (utxos : List TransactionOutput) (k : String) :
    presentIn utxos k = true ↔
      (utxos ≠ [] ∧ k = "ada") ∨ ∃ u ∈ utxos, ∃ t ∈ u.tokens, t.asset.assetId = k := by
  unfold presentIn
  rw [List.any_eq_true]
  constructor
  · rintro ⟨u, hu, hcond⟩
    rcases Bool.or_eq_true_iff.mp hcond with h1 | h1
    · exact Or.inl ⟨List.ne_nil_of_mem hu, by simpa using h1⟩
    · obtain ⟨t, ht, htk⟩ := List.any_eq_true.mp h1
      exact Or.inr ⟨u, hu, t, ht, by simpa using htk⟩
  · rintro (⟨hne, rfl⟩ | ⟨u, hu, t, ht, htk⟩)
    · obtain ⟨u, hu⟩ := List.exists_mem_of_ne_nil _ hne
      exact ⟨u, hu, by simp⟩
    · exact ⟨u, hu, Or.inr (List.any_eq_true.mpr ⟨t, ht, by simpa using htk⟩) |> Bool.or_eq_true_iff.mpr⟩

/-- In a map satisfying the invariant, a key that is present owns exactly one
entry of the value list. -/
theorem filter_values_length_one (k : String) (m : BalanceMap) :
    AggInv m → k ∈ mapKeys m →
      ((mapValues m).filter (fun b => b.asset.assetId == k)).length = 1 := by
  induction m with
  | nil => intro _ hk; simp [mapKeys] at hk
  | cons p rest ih =>
    intro h hk
    obtain ⟨hnd, hkeyed⟩ := h
    rw [mapKeys_cons, List.nodup_cons] at hnd
    have hrest : AggInv rest := ⟨hnd.2, fun q hq => hkeyed q (List.mem_cons_of_mem p hq)⟩
    have hpkey : p.2.asset.assetId = p.1 := hkeyed p (List.mem_cons_self p rest)
    rw [mapKeys_cons] at hk
    show ((p.2 :: mapValues rest).filter (fun b => b.asset.assetId == k)).length = 1
    by_cases hpk : p.1 = k
    · rw [List.filter_cons, if_pos (by simp [hpkey, hpk])]
      have hnil : (mapValues rest).filter (fun b => b.asset.assetId == k) = [] := by
        rw [List.filter_eq_nil_iff]
        intro b hb
        obtain ⟨q, hq, rfl⟩ := List.mem_map.mp hb
        have hqk : q.2.asset.assetId = q.1 := hkeyed q (List.mem_cons_of_mem p hq)
        intro hc
        have : q.1 = k := by
          rw [← hqk]
          simpa using hc
        apply hnd.1
        rw [hpk, ← this]
        exact List.mem_map.mpr ⟨q, hq, rfl⟩
      rw [hnil]
      rfl
    · rw [List.filter_cons, if_neg (by simp [hpkey, hpk])]
      rcases List.mem_cons.mp hk with h1 | h1
      · exact absurd h1.symm hpk
      · exact ih hrest h1

/-- Output pairs (asset id, numeric quantity) are the keys decorated with the
total contributions. -/
theorem aggregate_pairs (l : List TransactionOutput) :
    (mapValues (aggregateUtxos l)).map (fun b => (b.asset.assetId, parseDec b.quantity))
      = (mapKeys (aggregateUtxos l)).map (fun k => (k, totalContrib k l)) := by
  unfold mapValues mapKeys
  rw [List.map_map, List.map_map]
  apply List.map_congr_left
  intro p hp
  have hkey := (aggInv_aggregate l).2 p hp
  have hval : parseDec p.2.quantity = totalContrib p.2.asset.assetId l :=
    aggregate_entry_value l p.2 (List.mem_map.mpr ⟨p, hp, rfl⟩)
  show (p.2.asset.assetId, parseDec p.2.quantity) = (p.1, totalContrib p.1 l)
  rw [hval, hkey]

/-- The key lists of the aggregations of two permuted inputs are permutations
of each other. -/
theorem keys_perm (l1 l2 : List TransactionOutput) (h : l1.Perm l2) :
    (mapKeys (aggregateUtxos l1)).Perm (mapKeys (aggregateUtxos l2)) := by
  apply (List.perm_ext_iff_of_nodup (aggInv_aggregate l1).1 (aggInv_aggregate l2).1).mpr
  intro k
  rw [mem_keys_aggregate, mem_keys_aggregate, presentIn_iff, presentIn_iff]
  have hnil : l1 = [] ↔ l2 = [] := by
    constructor
    · intro hx; exact ((hx ▸ h : ([] : List TransactionOutput).Perm l2)).nil_eq.symm
    · intro hx; exact ((hx ▸ h.symm : ([] : List TransactionOutput).Perm l1)).nil_eq.symm
  constructor
  · rintro (⟨hne, rfl⟩ | ⟨u, hu, t, ht, htk⟩)
    · exact Or.inl ⟨fun hc => hne (hnil.mpr hc), rfl⟩
    · exact Or.inr ⟨u, h.mem_iff.mp hu, t, ht, htk⟩
  · rintro (⟨hne, rfl⟩ | ⟨u, hu, t, ht, htk⟩)
    · exact Or.inl ⟨fun hc => hne (hnil.mp hc), rfl⟩
    · exact Or.inr ⟨u, h.mem_iff.mpr hu, t, ht, htk⟩

/-- Total contributions are invariant under permutation of the input rows. -/
theorem totalContrib_perm (k : String) (l1 l2 : List TransactionOutput)
    (h : l1.Perm l2) : totalContrib k l1 = totalContrib k l2 :=
  List.Perm.sum_eq (h.map (utxoContrib k))

/-- A token list's contribution to an asset id is invariant under permutation
of the token list. -/
theorem tokensContrib_perm (k : String) {ts1 ts2 : List Token} (h : ts1.Perm ts2) :
    tokensContrib k ts1 = tokensContrib k ts2 :=
  List.Perm.sum_eq ((h.filter (fun t => t.asset.assetId == k)).map
    (fun t => parseDec t.quantity))

/-- Whether a token list holds asset id `k` is invariant under permutation. -/
theorem tokensAny_perm (k : String) {ts1 ts2 : List Token} (h : ts1.Perm ts2) :
    ts1.any (fun t => t.asset.assetId == k) = ts2.any (fun t => t.asset.assetId == k) := by
  by_cases h2 : ts2.any (fun t => t.asset.assetId == k) = true
  · rw [h2]
    rw [List.any_eq_true] at h2 ⊢
    obtain ⟨t, ht, hp⟩ := h2
    exact ⟨t, h.mem_iff.mpr ht, hp⟩
  · have h2f : ts2.any (fun t => t.asset.assetId == k) = false := by simpa using h2
    rw [h2f, List.any_eq_false]
    intro t ht
    exact (List.any_eq_false.mp h2f) t (h.mem_iff.mp ht)

/-- A record's contribution to an asset id depends only on its value and the
multiset of its tokens. -/
theorem utxoContrib_tokenPermEquiv (k : String) {u v : TransactionOutput}
    (h : TokenPermEquiv u v) : utxoContrib k u = utxoContrib k v := by
  unfold utxoContrib
  rw [h.1, tokensContrib_perm k h.2]

/-- Total contributions are invariant under reordering each record's token
list. -/
theorem totalContrib_forall₂ (k : String) {l1 l2 : List TransactionOutput}
    (h : List.Forall₂ TokenPermEquiv l1 l2) : totalContrib k l1 = totalContrib k l2 := by
  induction h with
  | nil => rfl
  | cons hR htail ih =>
    rw [totalContrib_cons, totalContrib_cons, utxoContrib_tokenPermEquiv k hR, ih]

/-- Entry presence is invariant under reordering each record's token list. -/
theorem presentIn_forall₂ (k : String) {l1 l2 : List TransactionOutput}
    (h : List.Forall₂ TokenPermEquiv l1 l2) : presentIn l1 k = presentIn l2 k := by
  induction h with
  | nil => rfl
  | cons hR htail ih =>
    rw [presentIn_cons, presentIn_cons, ih, tokensAny_perm k hR.2]

/-- The key lists of the aggregations of two inputs related by per-record
token reordering are permutations of each other. -/
theorem keys_perm_forall₂ {l1 l2 : List TransactionOutput}
    (h : List.Forall₂ TokenPermEquiv l1 l2) :
    (mapKeys (aggregateUtxos l1)).Perm (mapKeys (aggregateUtxos l2)) := by
  apply (List.perm_ext_iff_of_nodup (aggInv_aggregate l1).1 (aggInv_aggregate l2).1).mpr
  intro k
  rw [mem_keys_aggregate, mem_keys_aggregate, presentIn_forall₂ k h]

/-- Permuting the records permutes the output (asset id, value) pairs. -/
theorem aggregate_pairs_perm_of_perm (l1 l2 : List TransactionOutput)
    (h : l1.Perm l2) :
    ((mapValues (aggregateUtxos l1)).map
        (fun b => (b.asset.assetId, parseDec b.quantity))).Perm
      ((mapValues (aggregateUtxos l2)).map
        (fun b => (b.asset.assetId, parseDec b.quantity))) := by
  rw [aggregate_pairs l1, aggregate_pairs l2]
  have hmap : (mapKeys (aggregateUtxos l2)).map (fun k => (k, totalContrib k l1))
      = (mapKeys (aggregateUtxos l2)).map (fun k => (k, totalContrib k l2)) :=
    List.map_congr_left (fun k _ => by rw [totalContrib_perm k l1 l2 h])
  rw [← hmap]
  exact (keys_perm l1 l2 h).map (fun k => (k, totalContrib k l1))

/-- Reordering each record's token list permutes the output
(asset id, value) pairs. -/
theorem aggregate_pairs_perm_of_forall₂ (l1 l2 : List TransactionOutput)
    (h : List.Forall₂ TokenPermEquiv l1 l2) :
    ((mapValues (aggregateUtxos l1)).map
        (fun b => (b.asset.assetId, parseDec b.quantity))).Perm
      ((mapValues (aggregateUtxos l2)).map
        (fun b => (b.asset.assetId, parseDec b.quantity))) := by
  rw [aggregate_pairs l1, aggregate_pairs l2]
  have hmap : (mapKeys (aggregateUtxos l2)).map (fun k => (k, totalContrib k l1))
      = (mapKeys (aggregateUtxos l2)).map (fun k => (k, totalContrib k l2)) :=
    List.map_congr_left (fun k _ => by rw [totalContrib_forall₂ k h])
  rw [← hmap]
  exact (keys_perm_forall₂ h).map (fun k => (k, totalContrib k l1))

/-- C3: when no token's asset id equals the reserved key `'ada'`, the
aggregation of `getPaymentAddressSummary` yields exactly one `AssetBalance`
entry per distinct asset id — the reserved base-currency key (as soon as any
record exists) as well as every token-borne asset id — each entry's quantity
being the exact sum of all contributing quantities for that asset; on the
two-record example the result is exactly base currency `"3000000"`,
asset `A` `"12"`, asset `B` `"1"`. -/
theorem C3_one_entry_per_asset_exact_sums (utxos : List TransactionOutput) (count : Nat)
    (hNoAda : ∀ u ∈ utxos, ∀ t ∈ u.tokens, t.asset.assetId ≠ "ada") :
    ((∀ k, ((utxos ≠ [] ∧ k = "ada") ∨ ∃ u ∈ utxos, ∃ t ∈ u.tokens, t.asset.assetId = k) →
        (((getPaymentAddressSummary utxos count).assetBalances.filter
            (fun b => b.asset.assetId == k)).length = 1))
      ∧ ∀ b ∈ (getPaymentAddressSummary utxos count).assetBalances,
          parseDec b.quantity = totalContrib b.asset.assetId utxos)
    ∧ (getPaymentAddressSummary [exampleUtxo1, exampleUtxo2] 2).assetBalances.map
        (fun b => (b.asset.assetId, b.quantity))
      = [("ada", "3000000"), ("A", "12"), ("B", "1")] := by
  refine ⟨⟨?_, ?_⟩, by decide⟩
  · intro k hex
    have hmem : k ∈ mapKeys (aggregateUtxos utxos) := by
      rw [mem_keys_aggregate, presentIn_iff]
      exact hex
    exact filter_values_length_one k (aggregateUtxos utxos) (aggInv_aggregate utxos) hmem
  · exact fun b hb => aggregate_entry_value utxos b hb

/-- C3 witness: the general part instantiated on the worked example. -/
theorem C3_one_entry_per_asset_exact_sums_witness :
    ((∀ k, (([exampleUtxo1, exampleUtxo2] ≠ ([] : List TransactionOutput) ∧ k = "ada")
          ∨ ∃ u ∈ [exampleUtxo1, exampleUtxo2], ∃ t ∈ u.tokens, t.asset.assetId = k) →
        (((getPaymentAddressSummary [exampleUtxo1, exampleUtxo2] 2).assetBalances.filter
            (fun b => b.asset.assetId == k)).length = 1))
      ∧ ∀ b ∈ (getPaymentAddressSummary [exampleUtxo1, exampleUtxo2] 2).assetBalances,
          parseDec b.quantity = totalContrib b.asset.assetId [exampleUtxo1, exampleUtxo2])
    ∧ (getPaymentAddressSummary [exampleUtxo1, exampleUtxo2] 2).assetBalances.map
        (fun b => (b.asset.assetId, b.quantity))
      = [("ada", "3000000"), ("A", "12"), ("B", "1")] :=
  C3_one_entry_per_asset_exact_sums [exampleUtxo1, exampleUtxo2] 2 (by decide)

/-- C4: quantity addition is exact arbitrary-precision decimal arithmetic on
decimal strings: the sum of any two decimal-string quantities parses to the
exact integer sum and is again a decimal string; in particular the sum of
`"9007199254740993"` and `"1"` (beyond `2^53`) is exactly
`"9007199254740994"`. -/
theorem C4_exact_decimal_addition :
    (∀ a b : String, ValidDec a → ValidDec b →
      parseDec (bigNumPlus a b) = parseDec a + parseDec b ∧ ValidDec (bigNumPlus a b))
    ∧ bigNumPlus "9007199254740993" "1" = "9007199254740994" :=
  ⟨fun a b _ _ => ⟨parseDec_bigNumPlus a b, natToDec_validDec _⟩, by decide⟩

/-- C4 witness: the exactness statement applied beyond `2^53`. -/
theorem C4_exact_decimal_addition_witness :
    parseDec (bigNumPlus "9007199254740993" "1")
        = parseDec "9007199254740993" + parseDec "1"
      ∧ ValidDec (bigNumPlus "9007199254740993" "1") :=
  C4_exact_decimal_addition.1 "9007199254740993" "1" (by decide) (by decide)

/-- C5: reordering the input records in any way, and independently reordering
the token list inside each record, leaves the multiset of
(asset id, quantity value) pairs produced by the aggregation unchanged —
per-asset accumulation is a commutative sum. `l1` and `l2` are related by
first permuting each record's token list (`List.Forall₂ TokenPermEquiv`) and
then permuting the record sequence. -/
theorem C5_permutation_invariance (l1 lmid l2 : List TransactionOutput) (c : Nat)
    (htok : List.Forall₂ TokenPermEquiv l1 lmid) (hrec : lmid.Perm l2) :
    (((getPaymentAddressSummary l1 c).assetBalances.map
        (fun b => (b.asset.assetId, parseDec b.quantity)) : List (String × Nat))
      : Multiset (String × Nat))
    = (((getPaymentAddressSummary l2 c).assetBalances.map
        (fun b => (b.asset.assetId, parseDec b.quantity)) : List (String × Nat))
      : Multiset (String × Nat)) := by
  apply Multiset.coe_eq_coe.mpr
  show ((mapValues (aggregateUtxos l1)).map
      (fun b => (b.asset.assetId, parseDec b.quantity))).Perm
    ((mapValues (aggregateUtxos l2)).map
      (fun b => (b.asset.assetId, parseDec b.quantity)))
  exact (aggregate_pairs_perm_of_forall₂ l1 lmid htok).trans
    (aggregate_pairs_perm_of_perm lmid l2 hrec)

/-- C5 witness: the two-record example with the second record's tokens
iterated in the opposite order and the records reversed. -/
theorem C5_permutation_invariance_witness :
    (((getPaymentAddressSummary [exampleUtxo1, exampleUtxo2] 2).assetBalances.map
        (fun b => (b.asset.assetId, parseDec b.quantity)) : List (String × Nat))
      : Multiset (String × Nat))
    = (((getPaymentAddressSummary
          [exampleUtxo2TokensSwapped, exampleUtxo1] 2).assetBalances.map
        (fun b => (b.asset.assetId, parseDec b.quantity)) : List (String × Nat))
      : Multiset (String × Nat)) :=
  C5_permutation_invariance [exampleUtxo1, exampleUtxo2]
    [exampleUtxo1, exampleUtxo2TokensSwapped] [exampleUtxo2TokensSwapped, exampleUtxo1] 2
    (List.Forall₂.cons ⟨rfl, List.Perm.refl _⟩
      (List.Forall₂.cons ⟨rfl, List.Perm.swap _ _ _⟩ List.Forall₂.nil))
    (List.Perm.swap _ _ _)

/-- C10: on an empty utxo result the summary has an empty balance list (no
`'ada'` entry with quantity `"0"` is created) and the utxo count is exactly
the separately queried aggregate count. -/
theorem C10_empty_input (count : Nat) :
    getPaymentAddressSummary [] count
      = { assetBalances := [], utxosCount := count } := rfl

/-! ### Retrier facts -/

/-- For an operation that fails on every attempt, `pRetryRun` with `r`
additional retries applies the operation exactly `r + 1` times in sequence
and returns the result of the final application unchanged. -/
theorem pRetryRun_allFail {σ E α : Type} (op : σ → σ × Except E α)
    (hfail : ∀ s, ∃ e, (op s).2 = Except.error e) :
    ∀ (r : Nat) (s : σ),
      pRetryRun op r s
        = (iterApply (fun s => (op s).1) (r + 1) s,
           (op (iterApply (fun s => (op s).1) r s)).2) := by
  intro r
  induction r with
  | zero => intro s; rfl
  | succ r ih =>
    intro s
    obtain ⟨e, he⟩ := hfail s
    have hop : op s = ((op s).1, Except.error e) := by
      rw [← he]
    show (match op s with
      | (s1, Except.ok a) => (s1, Except.ok a)
      | (s1, Except.error _) => pRetryRun op r s1) = _
    rw [hop]
    exact ih (op s).1

/-- Every attempt of `pRetryRun` over a trace-appending operation appends a
whole attempt chunk; the final trace is the initial trace followed by the
attempts' chunks in order. -/
theorem pRetryRun_trace {E α : Type} (op : List String → List String × Except E α)
    (P : List String → Prop)
    (hop : ∀ tr, ∃ chunk, (op tr).1 = tr ++ chunk ∧ P chunk) :
    ∀ (r : Nat) (tr : List String), ∃ chunks : List (List String),
      (pRetryRun op r tr).1 = tr ++ chunks.flatten ∧ ∀ c ∈ chunks, P c := by
  intro r
  induction r with
  | zero =>
    intro tr
    obtain ⟨chunk, hc, hP⟩ := hop tr
    refine ⟨[chunk], ?_, ?_⟩
    · show (op tr).1 = tr ++ [chunk].flatten
      simpa using hc
    · intro c hc2
      rcases List.mem_singleton.mp hc2 with rfl
      exact hP
  | succ r ih =>
    intro tr
    obtain ⟨chunk, hc, hP⟩ := hop tr
    rcases hmatch : op tr with ⟨tr1, res⟩
    rw [hmatch] at hc
    cases res with
    | ok a =>
      refine ⟨[chunk], ?_, ?_⟩
      · simp only [pRetryRun]
        rw [hmatch]
        show tr1 = tr ++ [chunk].flatten
        simpa using hc
      · intro c hc2
        rcases List.mem_singleton.mp hc2 with rfl
        exact hP
    | error e =>
      obtain ⟨chunks1, h1, h2⟩ := ih tr1
      refine ⟨chunk :: chunks1, ?_, ?_⟩
      · simp only [pRetryRun]
        rw [hmatch]
        show (pRetryRun op r tr1).1 = tr ++ (chunk :: chunks1).flatten
        have hc2 : tr1 = tr ++ chunk := hc
        rw [h1, hc2, List.flatten_cons, List.append_assoc]
      · intro c hc2
        rcases List.mem_cons.mp hc2 with rfl | hm
        · exact hP
        · exact h2 c hm

/-- Each attempt of the migrations unit appends `[down]` (the `--down` run
rejected) or `[down, up]` — every attempt starts over at the `--down`
command. -/
theorem migrateAttempt_trace (env : CliEnv) (tr : List String) :
    ∃ chunk, (migrateAttempt env tr).1 = tr ++ chunk
      ∧ (chunk = [migrateDownCmd] ∨ chunk = [migrateDownCmd, migrateUpCmd]) := by
  unfold migrateAttempt runCli
  by_cases h1 : env tr migrateDownCmd
  · by_cases h2 : env (tr ++ [migrateDownCmd]) migrateUpCmd
    · exact ⟨[migrateDownCmd, migrateUpCmd], by simp [h1, h2], Or.inr rfl⟩
    · exact ⟨[migrateDownCmd, migrateUpCmd], by simp [h1, h2], Or.inr rfl⟩
  · exact ⟨[migrateDownCmd], by simp [h1], Or.inl rfl⟩

/-- Each attempt of the metadata unit appends `[clear]` or `[clear, apply]` —
every attempt starts over at the `clear` command. -/
theorem metadataAttempt_trace (env : CliEnv) (tr : List String) :
    ∃ chunk, (metadataAttempt env tr).1 = tr ++ chunk
      ∧ (chunk = [metadataClearCmd] ∨ chunk = [metadataClearCmd, metadataApplyCmd]) := by
  unfold metadataAttempt runCli
  by_cases h1 : env tr metadataClearCmd
  · by_cases h2 : env (tr ++ [metadataClearCmd]) metadataApplyCmd
    · exact ⟨[metadataClearCmd, metadataApplyCmd], by simp [h1, h2], Or.inr rfl⟩
    · exact ⟨[metadataClearCmd, metadataApplyCmd], by simp [h1, h2], Or.inr rfl⟩
  · exact ⟨[metadataClearCmd], by simp [h1], Or.inl rfl⟩

/-- The validation loop errors, naming a missing type, whenever some listed
type is absent. -/
theorem checkCoreTypes_error (s : IntrospectedSchema) :
    ∀ l : List String, (∃ t ∈ l, getType s t = false) →
      ∃ t, checkCoreTypes l s = Except.error ("Remote schema is missing " ++ t)
        ∧ getType s t = false := by
  intro l
  induction l with
  | nil => rintro ⟨t, ht, _⟩; simp at ht
  | cons t ts ih =>
    rintro ⟨t', ht', hmiss⟩
    by_cases hget : getType s t
    · rcases List.mem_cons.mp ht' with rfl | hmem
      · rw [hget] at hmiss; cases hmiss
      · obtain ⟨t0, h1, h2⟩ := ih ⟨t', hmem, hmiss⟩
        exact ⟨t0, by simpa [checkCoreTypes, hget] using h1, h2⟩
    · refine ⟨t, ?_, by simpa using hget⟩
      simp [checkCoreTypes, hget]

/-- The validation loop succeeds when every listed type is present. -/
theorem checkCoreTypes_ok (s : IntrospectedSchema) :
    ∀ l : List String, (∀ t ∈ l, getType s t = true) →
      checkCoreTypes l s = Except.ok s := by
  intro l
  induction l with
  | nil => intro _; rfl
  | cons t ts ih =>
    intro h
    simp [checkCoreTypes, h t (List.mem_cons_self t ts),
      ih (fun x hx => h x (List.mem_cons_of_mem t hx))]

/-- C1: contrary to the specification, `applySchemaAndMetadata` does not clear
the `applying` flag on terminal failure. With every CLI invocation failing,
the migrations unit exhausts its ten attempts (ten `--down` runs), the call
ends in the `failed` outcome with the flag still `true`, and a later call is
permanently skipped by the stale flag. -/
theorem C1_flag_left_set_on_terminal_failure :
    applySchemaAndMetadata (fun _ _ => false) { applying := false, trace := [] }
      = ({ applying := true, trace := List.replicate 10 migrateDownCmd },
          ApplyResult.failed)
    ∧ applySchemaAndMetadata (fun _ _ => false)
        { applying := true, trace := List.replicate 10 migrateDownCmd }
      = ({ applying := true, trace := List.replicate 10 migrateDownCmd },
          ApplyResult.skipped) := by
  exact ⟨by decide, by decide⟩

/-- C2: contrary to the specification, the distinguished "not ready yet"
rejection of `getAdaCirculatingSupply` is not swallowed by the producer: the
promise is returned without `await`, so the `catch` cannot intercept its
rejection and the error reaches the fetcher. The spec-modelled behaviour
(`specNotReadySwallowed`) resolves with no value instead. Successful queries
pass through. -/
theorem C2_not_ready_rejection_reaches_fetcher :
    adaCirculatingSupplyProducer (PromiseOutcome.rejected notReadyMessage)
        = PromiseOutcome.rejected notReadyMessage
    ∧ specNotReadySwallowed (PromiseOutcome.rejected notReadyMessage)
        = PromiseOutcome.resolved none
    ∧ adaCirculatingSupplyProducer (PromiseOutcome.resolved "42")
        = PromiseOutcome.resolved (some "42") :=
  ⟨rfl, by simp [specNotReadySwallowed], rfl⟩

/-- C6: `buildHasuraSchema` fails, naming a missing type, when the
introspected schema lacks any of the required top-level types (`Block`,
`Cardano`, `Epoch`, `Transaction`); when all are present it succeeds and
returns the schema. -/
theorem C6_required_top_level_types (s : IntrospectedSchema) :
    ((∃ t ∈ (["Block", "Cardano", "Epoch", "Transaction"] : List String),
        getType s t = false) →
      ∃ t, buildHasuraSchema s = Except.error ("Remote schema is missing " ++ t)
        ∧ getType s t = false)
    ∧ ((∀ t ∈ (["Block", "Cardano", "Epoch", "Transaction"] : List String),
        getType s t = true) →
      buildHasuraSchema s = Except.ok s) := by
  constructor
  · rintro ⟨t, ht, hmiss⟩
    apply checkCoreTypes_error s coreTypes
    refine ⟨t, ?_, hmiss⟩
    simp only [coreTypes]
    simp at ht ⊢
    tauto
  · intro hall
    apply checkCoreTypes_ok
    intro t ht
    apply hall
    simp only [coreTypes] at ht
    simp at ht ⊢
    tauto

/-- C6 witness: a schema missing `Epoch` is rejected naming a missing type; a
schema with all four required types is accepted. -/
theorem C6_required_top_level_types_witness :
    (∃ t, buildHasuraSchema { typeNames := ["Block", "Cardano", "Transaction"] }
        = Except.error ("Remote schema is missing " ++ t)
      ∧ getType { typeNames := ["Block", "Cardano", "Transaction"] } t = false)
    ∧ buildHasuraSchema { typeNames := ["Block", "Cardano", "Epoch", "Transaction"] }
        = Except.ok { typeNames := ["Block", "Cardano", "Epoch", "Transaction"] } :=
  ⟨(C6_required_top_level_types { typeNames := ["Block", "Cardano", "Transaction"] }).1
      (by decide),
    (C6_required_top_level_types
      { typeNames := ["Block", "Cardano", "Epoch", "Transaction"] }).2 (by decide)⟩

/-- C7: a call made while the `applying` flag is set returns immediately with
the state unchanged — it runs no migration or metadata command (the trace
does not grow) and raises nothing (the result is `skipped`, not `failed`).
The flag is set synchronously before the first await of a running call, so
every state a concurrent second call can observe mid-flight has
`applying = true`; as the second call leaves the state untouched, the
interleaving of two calls executes exactly the first call's apply sequence. -/
theorem C7_reentrant_call_is_noop (env : CliEnv) (s : SyncState)
    (h : s.applying = true) :
    applySchemaAndMetadata env s = (s, ApplyResult.skipped)
      ∧ (applySchemaAndMetadata env s).1.trace = s.trace := by
  have hs : applySchemaAndMetadata env s = (s, ApplyResult.skipped) := by
    unfold applySchemaAndMetadata
    rw [if_pos h]
  exact ⟨hs, by rw [hs]⟩

/-- C7 witness: a concrete mid-flight state. -/
theorem C7_reentrant_call_is_noop_witness :
    applySchemaAndMetadata (fun _ _ => true)
        { applying := true, trace := [migrateDownCmd] }
      = ({ applying := true, trace := [migrateDownCmd] }, ApplyResult.skipped)
    ∧ (applySchemaAndMetadata (fun _ _ => true)
        { applying := true, trace := [migrateDownCmd] }).1.trace = [migrateDownCmd] :=
  C7_reentrant_call_is_noop (fun _ _ => true)
    { applying := true, trace := [migrateDownCmd] } rfl

/-- C8: in one run of `applySchemaAndMetadata` the executed commands are the
migration attempts' chunks followed by the metadata attempts' chunks — the
migrations unit, retries included, fully precedes any metadata command — and
every attempt chunk restarts the whole unit: it is `[down]` or `[down, up]`
(resp. `[clear]` or `[clear, apply]`), never a lone second command. -/
theorem C8_units_sequenced_and_retried_whole (env : CliEnv) (s : SyncState)
    (h : s.applying = false) :
    ∃ migChunks metaChunks : List (List String),
      (applySchemaAndMetadata env s).1.trace
        = s.trace ++ migChunks.flatten ++ metaChunks.flatten
      ∧ (∀ c ∈ migChunks, c = [migrateDownCmd] ∨ c = [migrateDownCmd, migrateUpCmd])
      ∧ (∀ c ∈ metaChunks,
          c = [metadataClearCmd] ∨ c = [metadataClearCmd, metadataApplyCmd]) := by
  unfold applySchemaAndMetadata
  rw [if_neg (by simp [h])]
  obtain ⟨migChunks, hm1, hm2⟩ :=
    pRetryRun_trace (migrateAttempt env) _ (migrateAttempt_trace env) 9 s.trace
  rcases hm : pRetryRun (migrateAttempt env) 9 s.trace with ⟨tr1, res1⟩
  rw [hm] at hm1
  have hm1' : tr1 = s.trace ++ migChunks.flatten := hm1
  cases res1 with
  | error e =>
    refine ⟨migChunks, [], ?_, hm2, by simp⟩
    show tr1 = s.trace ++ migChunks.flatten ++ ([] : List (List String)).flatten
    rw [hm1']
    simp
  | ok a =>
    obtain ⟨metaChunks, hn1, hn2⟩ :=
      pRetryRun_trace (metadataAttempt env) _ (metadataAttempt_trace env) 9 tr1
    rcases hn : pRetryRun (metadataAttempt env) 9 tr1 with ⟨tr2, res2⟩
    rw [hn] at hn1
    have hn1' : tr2 = tr1 ++ metaChunks.flatten := hn1
    refine ⟨migChunks, metaChunks, ?_, hm2, hn2⟩
    cases res2 with
    | error e =>
      simp only [hn]
      show tr2 = s.trace ++ migChunks.flatten ++ metaChunks.flatten
      rw [hn1', hm1', List.append_assoc]
    | ok a2 =>
      simp only [hn]
      show tr2 = s.trace ++ migChunks.flatten ++ metaChunks.flatten
      rw [hn1', hm1', List.append_assoc]

/-- C8 witness: a run from a fresh state with an all-succeeding CLI. -/
theorem C8_units_sequenced_and_retried_whole_witness :
    ∃ migChunks metaChunks : List (List String),
      (applySchemaAndMetadata (fun _ _ => true)
          { applying := false, trace := [] }).1.trace
        = [] ++ migChunks.flatten ++ metaChunks.flatten
      ∧ (∀ c ∈ migChunks, c = [migrateDownCmd] ∨ c = [migrateDownCmd, migrateUpCmd])
      ∧ (∀ c ∈ metaChunks,
          c = [metadataClearCmd] ∨ c = [metadataClearCmd, metadataApplyCmd]) :=
  C8_units_sequenced_and_retried_whole (fun _ _ => true)
    { applying := false, trace := [] } rfl

/-- C9: under the policy with ten total attempts, an operation that fails on
every attempt is invoked exactly ten times — the final state is the tenfold
iterate of the operation's state transformation — and the error raised is the
tenth attempt's error, unchanged (nothing is transformed or swallowed). -/
theorem C9_retry_count_and_last_error :
    (∀ (σ E α : Type) (op : σ → σ × Except E α),
        (∀ s, ∃ e, (op s).2 = Except.error e) →
        ∀ (r : Nat) (s : σ),
          pRetryRun op r s
            = (iterApply (fun s => (op s).1) (r + 1) s,
               (op (iterApply (fun s => (op s).1) r s)).2))
    ∧ ∀ (E : Type) (errs : Nat → E),
        pRetryRun (fun n : Nat => (n + 1, (Except.error (errs n) : Except E Unit))) 9 0
          = (10, Except.error (errs 9)) := by
  constructor
  · intro σ E α op hfail r s
    exact pRetryRun_allFail op hfail r s
  · intro E errs
    exact (pRetryRun_allFail (fun n : Nat => (n + 1, Except.error (errs n)))
      (fun n => ⟨errs n, rfl⟩) 9 0).trans rfl

/-- C9 witness: a counting operation whose n-th attempt fails with error n. -/
theorem C9_retry_count_and_last_error_witness :
    pRetryRun (fun n : Nat => (n + 1, (Except.error n : Except Nat Unit))) 9 0
      = (10, Except.error 9) := by
  have h := C9_retry_count_and_last_error.1 Nat Nat Unit
    (fun n : Nat => (n + 1, Except.error n)) (fun n => ⟨n, rfl⟩) 9 0
  exact h.trans rfl

end HasuraClient
